import Mathlib

/-!
Shallow embedding of the goodgame game registry (src/games.rs) and the
backup/restore engine (src/main.rs), together with proofs about the
registry invariants, merge semantics and archive naming.

Paths (`PathBuf`) are modelled as strings compared for equality, registries
as lists of records, and the contents of a `gg-saves` directory as the list
of file names it holds.
-/

/-- `Game` (games.rs): one managed game record. -/
structure Game where
  name : String
  root : String
  save_location : String
  executable : Option String
  run_commands : Option (List String)
deriving DecidableEq

instance : Inhabited Game := ⟨⟨"", "", "", none, none⟩⟩

/-- Lexicographic strict order on character lists; Rust's byte-wise `str`
    order coincides with this code-point order on UTF-8. -/
def charListLtB : List Char → List Char → Bool
  | [], [] => false
  | [], _ :: _ => true
  | _ :: _, [] => false
  | a :: as, b :: bs =>
    if a < b then true
    else if b < a then false
    else charListLtB as bs

/-- `a < b` for Rust strings. -/
def strLtB (a b : String) : Bool :=
  charListLtB a.toList b.toList

/-- Rust string comparison `a.cmp(b)`; `Ord for Game` delegates to this on
    `name` alone. -/
def strCmp (a b : String) : Ordering :=
  if strLtB a b then .lt else if strLtB b a then .gt else .eq

/-- `PartialEq for Game`: same name OR same root OR same save_location. -/
def Game.rustEq (a b : Game) : Bool :=
  a.name == b.name || a.root == b.root || a.save_location == b.save_location

/-- `Game::merge`: root and save_location are always taken from the incoming
    record; executable and run_commands only when the incoming record sets them. -/
def Game.merge (self other : Game) : Game :=
  { self with
    root := other.root
    save_location := other.save_location
    executable := if other.executable.isSome then other.executable else self.executable
    run_commands := if other.run_commands.isSome then other.run_commands else self.run_commands }

/-- `Game::merged_with` (used by the `edit` path). -/
def Game.merged_with (self : Game) (name root save_location : Option String)
    (executable : Option String) (run_commands : Option (List String)) : Game :=
  { name := name.getD self.name
    root := root.getD self.root
    save_location := save_location.getD self.save_location
    executable := executable.or self.executable
    run_commands := run_commands.or self.run_commands }

/-- Name of the `i`-th record (`default` when out of range); the view of the
    registry the by-name binary search reads. -/
def nameAt (l : List Game) (i : Nat) : String := (l.getD i default).name

/-- Fuel-indexed embedding of `slice::binary_search_by` with the by-name
    comparator used throughout games.rs (`mid = lo + (hi - lo) / 2`,
    i.e. `(lo + hi) / 2`). Fuel `l.length` always suffices: the interval
    shrinks at each step, and once `lo = hi` both the fuel-exhausted and the
    normal branch return `.error lo`. -/
def bsearchAux (l : List Game) (key : String) : Nat → Nat → Nat → Except Nat Nat
  | 0, lo, _ => .error lo
  | fuel + 1, lo, hi =>
    if lo < hi then
      let mid := (lo + hi) / 2
      match strCmp (nameAt l mid) key with
      | .lt => bsearchAux l key fuel (mid + 1) hi
      | .gt => bsearchAux l key fuel lo mid
      | .eq => .ok mid
    else .error lo

/-- `self.inner.binary_search_by(|g| g.name.as_str().cmp(name))`. -/
def binarySearchByName (l : List Game) (key : String) : Except Nat Nat :=
  bsearchAux l key l.length 0 l.length

/-- `Vec::insert(i, g)`. -/
def insertAt (l : List Game) (i : Nat) (g : Game) : List Game :=
  l.take i ++ g :: l.drop i

/-- `Games::push`: binary search by name; merge in place on a hit, insert at
    the reported position on a miss. -/
def Games.push (l : List Game) (g : Game) : List Game :=
  match binarySearchByName l g.name with
  | .ok i => l.set i ((l.getD i default).merge g)
  | .error i => insertAt l i g

/-- `Games::delete`: returns the removed record (if any) and the new registry. -/
def Games.delete (l : List Game) (name : String) : Option Game × List Game :=
  match binarySearchByName l name with
  | .ok i => (some (l.getD i default), l.take i ++ l.drop (i + 1))
  | .error _ => (none, l)

/-- The message `get_by_name` bails with on a miss. -/
def notFoundMsg (name : String) : String :=
  "The game " ++ name ++ " does not exist"

/-- `Games::get_by_name`. -/
def Games.get_by_name (l : List Game) (name : String) : Except String Game :=
  match binarySearchByName l name with
  | .ok i => .ok (l.getD i default)
  | .error _ => .error (notFoundMsg name)

/-- The registry invariant: strictly sorted by name (hence names pairwise
    distinct). -/
def sortedByName (l : List Game) : Prop :=
  l.Pairwise (fun a b => strLtB a.name b.name = true)

instance (l : List Game) : Decidable (sortedByName l) :=
  inferInstanceAs (Decidable (l.Pairwise _))

/-- File stem per Rust `Path::file_stem` on a plain file name: the portion
    before the last dot, a leading dot not counting as starting an extension. -/
def stemChars : List Char → List Char
  | [] => []
  | c :: rest =>
    if '.' ∈ rest then
      ((c :: rest).reverse.drop (((c :: rest).reverse.takeWhile (· ≠ '.')).length + 1)).reverse
    else c :: rest

/-- Rust `Path::with_extension` on a plain file name: replaces everything
    after the last dot (or appends when there is no extension). -/
def withExtension (s ext : String) : String :=
  String.mk (stemChars s.toList) ++ "." ++ ext

/-- `format!("{idx:0>3}")`: decimal, left-padded with zeros to width 3. -/
def pad3 (n : Nat) : String :=
  String.mk (List.replicate (3 - (toString n).length) '0') ++ toString n

/-- The `-DESCRIPTION` suffix computed in `backup` (empty when absent). -/
def descSuffix : Option String → String
  | some d => "-" ++ d
  | none => ""

/-- The archive file name `backup` creates, given the current entry count of
    `root/gg-saves` (main.rs: `format!("{name}-{idx:0>3}{desc}")` followed by
    `.with_extension("tar.zst")`). -/
def backupFileName (name : String) (desc : Option String) (count : Nat) : String :=
  withExtension (name ++ "-" ++ pad3 count ++ descSuffix desc) "tar.zst"

/-- Rust `str::split('-')` on the underlying character list. -/
def splitOnDashChars : List Char → List (List Char)
  | [] => [[]]
  | c :: rest =>
    if c = '-' then [] :: splitOnDashChars rest
    else
      match splitOnDashChars rest with
      | [] => [[c]]
      | h :: t => (c :: h) :: t

/-- `target.split("-")` as a list of strings. -/
def rustSplitDash (s : String) : List String :=
  (splitOnDashChars s.toList).map String.mk

/-- `str::trim_end_matches(|c| !c.is_ascii_digit())`. -/
def trimEndNonDigits (s : String) : String :=
  String.mk ((s.toList.reverse.dropWhile (fun c => !c.isDigit)).reverse)

/-- Outcome of `restore` once the game has been resolved by name. -/
inductive RestoreResult
  | panicMissingIdx
  | openFailed (created : String)
  | restored (created : String)
deriving DecidableEq

/-- `restore` (main.rs) after `get_by_name` succeeded, over the list of file
    names in the game's `gg-saves` directory. The boolean produced by
    `target_path.try_exists()` is discarded by the source, so it takes no part
    in the control flow; the safety `backup` call is modelled as appending the
    archive name it creates, and the subsequent `File::open` of the target
    succeeds exactly when the target name is present in the directory. -/
def restore (game : Game) (target : String) (dir : List String) :
    RestoreResult × List String :=
  match (rustSplitDash target)[1]? with
  | none => (.panicMissingIdx, dir)
  | some second =>
    let idx := trimEndNonDigits second
    let created := backupFileName game.name (some ("replaced-with-" ++ idx)) dir.length
    let dir2 := dir ++ [created]
    if target ∈ dir2 then (.restored created, dir2)
    else (.openFailed created, dir2)

/-- The root/save validation guarding `add` (main.rs line 126). -/
def addRootSaveCheck (root save_location : String) : Except String Unit :=
  if root = save_location then
    .error "The root and save locations can not be the same"
  else .ok ()

/-! ### Order facts for the string comparison -/

theorem charListLtB_cons_iff (a b : Char) (as bs : List Char) :
    charListLtB (a :: as) (b :: bs) = true ↔
      a < b ∨ (a = b ∧ charListLtB as bs = true) := by
  simp only [charListLtB]
  rcases lt_trichotomy a b with h | h | h
  · rw [if_pos h]
    simp [h]
  · subst h
    rw [if_neg (lt_irrefl a), if_neg (lt_irrefl a)]
    simp [lt_irrefl]
  · rw [if_neg (lt_asymm h), if_pos h]
    simp [lt_asymm h, (ne_of_gt h : a ≠ b)]

theorem charListLtB_irrefl (x : List Char) : charListLtB x x = false := by
  induction x with
  | nil => rfl
  | cons a as ih =>
    rw [Bool.eq_false_iff]
    intro h
    rcases (charListLtB_cons_iff a a as as).mp h with h' | ⟨_, h'⟩
    · exact lt_irrefl a h'
    · rw [ih] at h'
      cases h'

theorem charListLtB_asymm :
    ∀ (x y : List Char), charListLtB x y = true → charListLtB y x = false
  | [], [], h => by cases h
  | [], _ :: _, _ => rfl
  | _ :: _, [], h => by cases h
  | a :: as, b :: bs, h => by
    rw [Bool.eq_false_iff]
    intro h'
    rcases (charListLtB_cons_iff a b as bs).mp h with hab | ⟨rfl, hab⟩
    · rcases (charListLtB_cons_iff b a bs as).mp h' with hba | ⟨hba', hba⟩
      · exact lt_asymm hab hba
      · exact lt_irrefl a (hba' ▸ hab)
    · rcases (charListLtB_cons_iff a a bs as).mp h' with hba | ⟨_, hba⟩
      · exact lt_irrefl a hba
      · rw [charListLtB_asymm as bs hab] at hba
        cases hba

theorem charListLtB_trans :
    ∀ (x y z : List Char), charListLtB x y = true → charListLtB y z = true →
      charListLtB x z = true
  | [], [], _, hxy, _ => by cases hxy
  | [], _ :: _, [], _, hyz => by cases hyz
  | [], _ :: _, _ :: _, _, _ => rfl
  | _ :: _, [], _, hxy, _ => by cases hxy
  | _ :: _, _ :: _, [], _, hyz => by cases hyz
  | a :: as, b :: bs, c :: cs, hxy, hyz => by
    rw [charListLtB_cons_iff] at hxy hyz ⊢
    rcases hxy with hab | ⟨rfl, hab⟩
    · rcases hyz with hbc | ⟨rfl, _⟩
      · exact Or.inl (lt_trans hab hbc)
      · exact Or.inl hab
    · rcases hyz with hbc | ⟨rfl, hbc⟩
      · exact Or.inl hbc
      · exact Or.inr ⟨rfl, charListLtB_trans as bs cs hab hbc⟩

theorem charListLtB_eq_of_not_lt :
    ∀ (x y : List Char), charListLtB x y = false → charListLtB y x = false → x = y
  | [], [], _, _ => rfl
  | [], _ :: _, h1, _ => by cases h1
  | _ :: _, [], _, h2 => by cases h2
  | a :: as, b :: bs, h1, h2 => by
    rcases lt_trichotomy a b with h | h | h
    · rw [(charListLtB_cons_iff a b as bs).mpr (Or.inl h)] at h1
      cases h1
    · subst h
      have hrec : charListLtB as bs = false := by
        rw [Bool.eq_false_iff]
        intro hx
        rw [(charListLtB_cons_iff a a as bs).mpr (Or.inr ⟨rfl, hx⟩)] at h1
        cases h1
      have hrec' : charListLtB bs as = false := by
        rw [Bool.eq_false_iff]
        intro hx
        rw [(charListLtB_cons_iff a a bs as).mpr (Or.inr ⟨rfl, hx⟩)] at h2
        cases h2
      rw [charListLtB_eq_of_not_lt as bs hrec hrec']
    · rw [(charListLtB_cons_iff b a bs as).mpr (Or.inl h)] at h2
      cases h2

theorem strLtB_irrefl (a : String) : strLtB a a = false :=
  charListLtB_irrefl a.toList

theorem strLtB_asymm {a b : String} (h : strLtB a b = true) : strLtB b a = false :=
  charListLtB_asymm a.toList b.toList h

theorem strLtB_trans {a b c : String} (h1 : strLtB a b = true)
    (h2 : strLtB b c = true) : strLtB a c = true :=
  charListLtB_trans a.toList b.toList c.toList h1 h2

theorem strLtB_eq_of_not_lt {a b : String} (h1 : strLtB a b = false)
    (h2 : strLtB b a = false) : a = b :=
  String.ext (charListLtB_eq_of_not_lt a.toList b.toList h1 h2)

theorem strLtB_ne {a b : String} (h : strLtB a b = true) : a ≠ b := by
  rintro rfl
  rw [strLtB_irrefl] at h
  cases h

theorem strCmp_eq_lt {a b : String} : strCmp a b = .lt ↔ strLtB a b = true := by
  unfold strCmp
  split_ifs with h1 h2 <;> simp [h1]

theorem strCmp_eq_gt {a b : String} : strCmp a b = .gt ↔ strLtB b a = true := by
  unfold strCmp
  split_ifs with h1 h2
  · simp only [reduceCtorEq, false_iff]
    rw [strLtB_asymm h1]
    simp
  · simp [h2]
  · simp [h2]

theorem strCmp_eq_eq {a b : String} : strCmp a b = .eq ↔ a = b := by
  unfold strCmp
  split_ifs with h1 h2
  · simp only [reduceCtorEq, false_iff]
    rintro rfl
    rw [strLtB_irrefl] at h1
    cases h1
  · simp only [reduceCtorEq, false_iff]
    rintro rfl
    rw [strLtB_irrefl] at h2
    cases h2
  · simp only [true_iff]
    exact strLtB_eq_of_not_lt (Bool.eq_false_iff.mpr h1) (Bool.eq_false_iff.mpr h2)

/-! ### Binary search characterization -/

/-- Index-wise strict monotonicity of names, the form of the registry
    invariant the binary search proofs consume. -/
def namesMono (l : List Game) : Prop :=
  ∀ p q, p < q → q < l.length → strLtB (nameAt l p) (nameAt l q) = true

theorem sortedByName_mono {l : List Game} (hs : sortedByName l) : namesMono l := by
  intro p q hpq hq
  have hp : p < l.length := lt_trans hpq hq
  have h2 := List.pairwise_iff_getElem.mp hs p q hp hq hpq
  rw [nameAt, nameAt, List.getD_eq_getElem _ _ hp, List.getD_eq_getElem _ _ hq]
  exact h2

theorem bsearchAux_ok_spec (l : List Game) (k : String) :
    ∀ fuel lo hi i, hi ≤ l.length →
      bsearchAux l k fuel lo hi = .ok i → i < l.length ∧ nameAt l i = k := by
  intro fuel
  induction fuel with
  | zero =>
    intro lo hi i _ h
    cases h
  | succ fuel ih =>
    intro lo hi i hhi h
    simp only [bsearchAux] at h
    split at h
    · next hlt =>
      split at h
      · next heq => exact ih _ hi i hhi h
      · next heq => exact ih lo _ i (le_trans (by omega) hhi) h
      · next heq =>
        cases h
        exact ⟨by omega, strCmp_eq_eq.mp heq⟩
    · cases h

theorem bsearchAux_err_spec (l : List Game) (k : String) (hm : namesMono l) :
    ∀ fuel lo hi i, lo ≤ hi → hi ≤ l.length → hi - lo ≤ fuel →
      bsearchAux l k fuel lo hi = .error i →
      lo ≤ i ∧ i ≤ hi ∧ (∀ j, lo ≤ j → j < i → strLtB (nameAt l j) k = true) ∧
        (∀ j, i ≤ j → j < hi → strLtB k (nameAt l j) = true) := by
  intro fuel
  induction fuel with
  | zero =>
    intro lo hi i hlohi hhi hfuel h
    cases h
    exact ⟨le_refl lo, hlohi, fun j h1 h2 => absurd h2 (by omega),
      fun j h1 h2 => absurd h2 (by omega)⟩
  | succ fuel ih =>
    intro lo hi i hlohi hhi hfuel h
    simp only [bsearchAux] at h
    split at h
    · next hlt =>
      split at h
      · next heq =>
        have hmidlt : strLtB (nameAt l ((lo + hi) / 2)) k = true := strCmp_eq_lt.mp heq
        obtain ⟨h1, h2, h3, h4⟩ := ih _ hi i (by omega) hhi (by omega) h
        refine ⟨by omega, h2, ?_, h4⟩
        intro j hj1 hj2
        rcases lt_trichotomy j ((lo + hi) / 2) with hj | hj | hj
        · exact strLtB_trans (hm j _ hj (by omega)) hmidlt
        · exact hj ▸ hmidlt
        · exact h3 j (by omega) hj2
      · next heq =>
        have hmidgt : strLtB k (nameAt l ((lo + hi) / 2)) = true := strCmp_eq_gt.mp heq
        obtain ⟨h1, h2, h3, h4⟩ := ih lo _ i (by omega) (by omega) (by omega) h
        refine ⟨h1, by omega, h3, ?_⟩
        intro j hj1 hj2
        rcases lt_trichotomy j ((lo + hi) / 2) with hj | hj | hj
        · exact h4 j hj1 hj
        · exact hj ▸ hmidgt
        · exact strLtB_trans hmidgt (hm _ j hj (by omega))
      · next heq => cases h
    · next hlt =>
      cases h
      exact ⟨le_refl lo, hlohi, fun j h1 h2 => absurd h2 (by omega),
        fun j h1 h2 => absurd h2 (by omega)⟩

theorem bsearch_ok {l : List Game} {k : String} {i : Nat}
    (h : binarySearchByName l k = .ok i) : i < l.length ∧ nameAt l i = k :=
  bsearchAux_ok_spec l k l.length 0 l.length i (le_refl _) h

theorem bsearch_err {l : List Game} {k : String} {i : Nat} (hm : namesMono l)
    (h : binarySearchByName l k = .error i) :
    i ≤ l.length ∧ (∀ j, j < i → strLtB (nameAt l j) k = true) ∧
      (∀ j, i ≤ j → j < l.length → strLtB k (nameAt l j) = true) := by
  obtain ⟨h1, h2, h3, h4⟩ := bsearchAux_err_spec l k hm l.length 0 l.length i
    (Nat.zero_le _) (le_refl _) (by omega) h
  exact ⟨h2, fun j hj => h3 j (Nat.zero_le _) hj, h4⟩

theorem bsearch_none {l : List Game} {k : String} {i : Nat} (hm : namesMono l)
    (h : binarySearchByName l k = .error i) :
    ∀ j, j < l.length → nameAt l j ≠ k := by
  obtain ⟨_, h3, h4⟩ := bsearch_err hm h
  intro j hj
  rcases lt_or_ge j i with hji | hji
  · exact strLtB_ne (h3 j hji)
  · exact (strLtB_ne (h4 j hji hj)).symm

theorem bsearch_find {l : List Game} {k : String} {i : Nat} (hm : namesMono l)
    (hik : i < l.length) (hk : nameAt l i = k) :
    binarySearchByName l k = .ok i := by
  rcases hres : binarySearchByName l k with j | j
  · exact absurd hk (bsearch_none hm hres i hik)
  · obtain ⟨hj, hkj⟩ := bsearch_ok hres
    rcases lt_trichotomy i j with h | h | h
    · have := hm i j h hj
      rw [hk, hkj, strLtB_irrefl] at this
      cases this
    · rw [h]
    · have := hm j i h hik
      rw [hk, hkj, strLtB_irrefl] at this
      cases this

/-! ### Push, delete and lookup -/

theorem nameAt_eq_getElem {l : List Game} {i : Nat} (h : i < l.length) :
    nameAt l i = (l[i]).name := by
  rw [nameAt, List.getD_eq_getElem _ _ h]

theorem push_sorted {l : List Game} (hs : sortedByName l) (g : Game) :
    sortedByName (Games.push l g) := by
  rw [Games.push]
  rcases hres : binarySearchByName l g.name with i | i
  · -- no hit: insert at the reported position
    obtain ⟨hlen, hlow, hhigh⟩ := bsearch_err (sortedByName_mono hs) hres
    show sortedByName (insertAt l i g)
    rw [sortedByName, insertAt, List.pairwise_append]
    refine ⟨List.Pairwise.sublist (List.take_sublist i l) hs, ?_, ?_⟩
    · rw [List.pairwise_cons]
      refine ⟨?_, List.Pairwise.sublist (List.drop_sublist i l) hs⟩
      intro b hb
      obtain ⟨j, hj, hbj⟩ := List.mem_iff_getElem.mp hb
      have hjlen : i + j < l.length := by
        have := List.length_drop i l
        omega
      have : b.name = nameAt l (i + j) := by
        rw [nameAt_eq_getElem hjlen, ← hbj, List.getElem_drop]
      rw [this]
      exact hhigh (i + j) (by omega) hjlen
    · intro a ha b hb
      obtain ⟨j, hj, haj⟩ := List.mem_iff_getElem.mp ha
      have hjlen : j < i ∧ j < l.length := by
        have := List.length_take i l
        simp only [this, lt_min_iff] at hj
        exact hj
      have haname : a.name = nameAt l j := by
        rw [nameAt_eq_getElem hjlen.2, ← haj, List.getElem_take]
      have halt : strLtB a.name g.name = true := by
        rw [haname]
        exact hlow j hjlen.1
      rcases List.mem_cons.mp hb with rfl | hb
      · exact halt
      · obtain ⟨j', hj', hbj'⟩ := List.mem_iff_getElem.mp hb
        have hjlen' : i + j' < l.length := by
          have := List.length_drop i l
          omega
        have : b.name = nameAt l (i + j') := by
          rw [nameAt_eq_getElem hjlen', ← hbj', List.getElem_drop]
        rw [this]
        exact strLtB_trans halt (hhigh (i + j') (by omega) hjlen')
  · -- hit: merge in place, names are unchanged
    obtain ⟨hi, hname⟩ := bsearch_ok hres
    show sortedByName (l.set i ((l.getD i default).merge g))
    have hkeep : ∀ j, j < l.length →
        nameAt (l.set i ((l.getD i default).merge g)) j = nameAt l j := by
      intro j hj
      rw [nameAt, nameAt, List.getD_eq_getElem _ _ (by simpa using hj),
        List.getD_eq_getElem _ _ hj, List.getElem_set]
      split
      · next hij =>
        subst hij
        show ((l.getD i default).merge g).name = _
        rw [show ((l.getD i default).merge g).name = (l.getD i default).name from rfl]
        rw [List.getD_eq_getElem _ _ hj]
      · rfl
    rw [sortedByName, List.pairwise_iff_getElem]
    intro p q hp hq hpq
    have hp2 : p < l.length := by simpa using hp
    have hq2 : q < l.length := by simpa using hq
    rw [← nameAt_eq_getElem hp, ← nameAt_eq_getElem hq, hkeep p hp2, hkeep q hq2,
      nameAt_eq_getElem hp2, nameAt_eq_getElem hq2]
    exact List.pairwise_iff_getElem.mp hs p q hp2 hq2 hpq

theorem push_sorted_foldl {l0 : List Game} (gs : List Game) (hs : sortedByName l0) :
    sortedByName (gs.foldl Games.push l0) := by
  induction gs generalizing l0 with
  | nil => exact hs
  | cons g gs ih => exact ih (push_sorted hs g)

theorem sorted_names_nodup {l : List Game} (hs : sortedByName l) :
    (l.map Game.name).Nodup := by
  rw [List.Nodup, List.pairwise_map]
  exact hs.imp (fun h => strLtB_ne h)

theorem push_length_iff {l : List Game} {g : Game} (hs : sortedByName l) :
    (Games.push l g).length = l.length ↔ g.name ∈ l.map Game.name := by
  rw [Games.push]
  rcases hres : binarySearchByName l g.name with i | i
  · obtain ⟨hlen, _, _⟩ := bsearch_err (sortedByName_mono hs) hres
    show (insertAt l i g).length = l.length ↔ _
    have hlength : (insertAt l i g).length = l.length + 1 := by
      rw [insertAt, List.length_append, List.length_take, List.length_cons,
        List.length_drop]
      omega
    rw [hlength]
    simp only [Nat.succ_ne_self, false_iff]
    intro hmem
    obtain ⟨a, ha, haname⟩ := List.mem_map.mp hmem
    obtain ⟨j, hj, haj⟩ := List.mem_iff_getElem.mp ha
    have : nameAt l j = g.name := by
      rw [nameAt_eq_getElem hj, haj, haname]
    exact bsearch_none (sortedByName_mono hs) hres j hj this
  · obtain ⟨hi, hname⟩ := bsearch_ok hres
    show (l.set i ((l.getD i default).merge g)).length = l.length ↔ _
    rw [List.length_set]
    simp only [true_iff]
    exact List.mem_map.mpr ⟨l[i], List.getElem_mem hi, by rw [← nameAt_eq_getElem hi, hname]⟩

theorem delete_removes_name {l : List Game} {n : String} (hs : sortedByName l) :
    ∀ a ∈ (Games.delete l n).2, a.name ≠ n := by
  rw [Games.delete]
  rcases hres : binarySearchByName l n with i | i
  · intro a ha heq
    replace ha : a ∈ l := ha
    obtain ⟨j, hj, haj⟩ := List.mem_iff_getElem.mp ha
    exact bsearch_none (sortedByName_mono hs) hres j hj
      (by rw [nameAt_eq_getElem hj, haj, heq])
  · obtain ⟨hi, hname⟩ := bsearch_ok hres
    intro a ha heq
    replace ha : a ∈ l.take i ++ l.drop (i + 1) := ha
    rcases List.mem_append.mp ha with hta | hda
    · obtain ⟨j, hj, haj⟩ := List.mem_iff_getElem.mp hta
      have hjb : j < i ∧ j < l.length := by
        have hlt := List.length_take i l
        simp only [hlt, lt_min_iff] at hj
        exact hj
      have hmono := sortedByName_mono hs j i hjb.1 hi
      rw [hname] at hmono
      have hnamea : a.name = nameAt l j := by
        rw [nameAt_eq_getElem hjb.2, ← haj, List.getElem_take]
      rw [← hnamea, heq] at hmono
      exact strLtB_ne hmono rfl
    · obtain ⟨j, hj, haj⟩ := List.mem_iff_getElem.mp hda
      have hjb : i + 1 + j < l.length := by
        have hlt := List.length_drop (i + 1) l
        omega
      have hmono := sortedByName_mono hs i (i + 1 + j) (by omega) hjb
      rw [hname] at hmono
      have hnamea : a.name = nameAt l (i + 1 + j) := by
        rw [nameAt_eq_getElem hjb, ← haj, List.getElem_drop]
      rw [← hnamea, heq] at hmono
      exact strLtB_ne hmono rfl

theorem get_by_name_error_of_no_name {l : List Game} {n : String}
    (h : ∀ a ∈ l, a.name ≠ n) :
    Games.get_by_name l n = .error (notFoundMsg n) := by
  rw [Games.get_by_name]
  rcases hres : binarySearchByName l n with i | i
  · rfl
  · obtain ⟨hi, hname⟩ := bsearch_ok hres
    rw [nameAt_eq_getElem hi] at hname
    exact absurd hname (h (l[i]) (List.getElem_mem hi))

theorem push_preserves_root_ne_save {l : List Game} {g0 : Game}
    (hl : ∀ a ∈ l, a.root ≠ a.save_location) (hg : g0.root ≠ g0.save_location) :
    ∀ a ∈ Games.push l g0, a.root ≠ a.save_location := by
  rw [Games.push]
  rcases hres : binarySearchByName l g0.name with i | i
  · intro a ha
    replace ha : a ∈ l.take i ++ g0 :: l.drop i := ha
    rcases List.mem_append.mp ha with h | h
    · exact hl a ((List.take_sublist i l).subset h)
    · rcases List.mem_cons.mp h with rfl | h
      · exact hg
      · exact hl a ((List.drop_sublist i l).subset h)
  · intro a ha
    replace ha : a ∈ l.set i ((l.getD i default).merge g0) := ha
    rcases List.mem_or_eq_of_mem_set ha with h | rfl
    · exact hl a h
    · exact hg

theorem delete_preserves_root_ne_save {l : List Game} {n : String}
    (hl : ∀ a ∈ l, a.root ≠ a.save_location) :
    ∀ a ∈ (Games.delete l n).2, a.root ≠ a.save_location := by
  rw [Games.delete]
  rcases hres : binarySearchByName l n with i | i
  · exact fun a ha => hl a ha
  · intro a ha
    replace ha : a ∈ l.take i ++ l.drop (i + 1) := ha
    rcases List.mem_append.mp ha with h | h
    · exact hl a ((List.take_sublist i l).subset h)
    · exact hl a ((List.drop_sublist (i + 1) l).subset h)

theorem merge_fields (old g : Game) :
    old.merge g = { name := old.name
                    root := g.root
                    save_location := g.save_location
                    executable := g.executable.or old.executable
                    run_commands := g.run_commands.or old.run_commands } := by
  cases hge : g.executable <;> cases hgr : g.run_commands <;>
    simp [Game.merge, hge, hgr, Option.or]

theorem push_found_merges {l : List Game} {g : Game} {i : Nat} (hs : sortedByName l)
    (hi : i < l.length) (hn : nameAt l i = g.name) :
    Games.push l g = l.set i ((l.getD i default).merge g) := by
  rw [Games.push, bsearch_find (sortedByName_mono hs) hi hn]

/-! ### Archive naming -/

theorem stemChars_no_dot {cs : List Char} (h : '.' ∉ cs) : stemChars cs = cs := by
  cases cs with
  | nil => rfl
  | cons c rest =>
    rw [stemChars, if_neg (fun hm => h (List.mem_cons_of_mem c hm))]

theorem digitChar_isDigit : ∀ d : Nat, d < 10 → (Nat.digitChar d).isDigit = true := by
  decide

theorem toDigitsCore_digits :
    ∀ (fuel n : Nat) (acc : List Char), (∀ c ∈ acc, c.isDigit = true) →
      ∀ c ∈ Nat.toDigitsCore 10 fuel n acc, c.isDigit = true := by
  intro fuel
  induction fuel with
  | zero =>
    intro n acc hacc c hc
    exact hacc c hc
  | succ fuel ih =>
    intro n acc hacc c hc
    rw [Nat.toDigitsCore] at hc
    have hcons : ∀ x ∈ Nat.digitChar (n % 10) :: acc, x.isDigit = true := by
      intro x hx
      rcases List.mem_cons.mp hx with rfl | hx
      · exact digitChar_isDigit _ (Nat.mod_lt _ (by omega))
      · exact hacc x hx
    split at hc
    · exact hcons c hc
    · exact ih _ _ hcons c hc

theorem toString_nat_digits (n : Nat) : ∀ c ∈ (toString n).toList, c.isDigit = true := by
  show ∀ c ∈ Nat.toDigitsCore 10 (n + 1) n [], c.isDigit = true
  exact toDigitsCore_digits (n + 1) n [] (by intro c hc; cases hc)

theorem pad3_no_dot (n : Nat) : '.' ∉ (pad3 n).toList := by
  intro h
  have : (pad3 n).toList = List.replicate (3 - (toString n).length) '0' ++ (toString n).toList :=
    rfl
  rw [this] at h
  rcases List.mem_append.mp h with h | h
  · have := List.eq_of_mem_replicate h
    cases this
  · have := toString_nat_digits n '.' h
    cases this

theorem descSuffix_no_dot {desc : Option String}
    (hd : ∀ d, desc = some d → '.' ∉ d.toList) : '.' ∉ (descSuffix desc).toList := by
  cases desc with
  | none => intro h; cases h
  | some d =>
    intro h
    replace h : '.' ∈ '-' :: d.toList := h
    rcases List.mem_cons.mp h with h | h
    · cases h
    · exact hd d rfl h

theorem backupFileName_no_dot {n : String} {desc : Option String} (count : Nat)
    (hn : '.' ∉ n.toList) (hd : ∀ d, desc = some d → '.' ∉ d.toList) :
    backupFileName n desc count =
      n ++ "-" ++ pad3 count ++ descSuffix desc ++ ".tar.zst" := by
  have hbase : '.' ∉ (n ++ "-" ++ pad3 count ++ descSuffix desc).toList := by
    intro h
    replace h : '.' ∈ n.toList ++ ['-'] ++ (pad3 count).toList ++ (descSuffix desc).toList := h
    rcases List.mem_append.mp h with h | h
    · rcases List.mem_append.mp h with h | h
      · rcases List.mem_append.mp h with h | h
        · exact hn h
        · rcases List.mem_cons.mp h with h | h
          · cases h
          · cases h
      · exact pad3_no_dot count h
    · exact descSuffix_no_dot hd h
  rw [backupFileName, withExtension, stemChars_no_dot hbase]
  rw [show String.mk (n ++ "-" ++ pad3 count ++ descSuffix desc).toList =
        n ++ "-" ++ pad3 count ++ descSuffix desc from rfl]
  rw [String.append_assoc]
  rfl

/-! ### Split and restore -/

theorem splitOnDashChars_no_dash {cs : List Char} (h : '-' ∉ cs) :
    splitOnDashChars cs = [cs] := by
  induction cs with
  | nil => rfl
  | cons c rest ih =>
    rw [splitOnDashChars,
      if_neg (fun (hc : c = '-') => h (hc ▸ List.mem_cons_self c rest)),
      ih (fun hm => h (List.mem_cons_of_mem c hm))]

theorem rustSplitDash_no_dash {s : String} (h : '-' ∉ s.toList) :
    rustSplitDash s = [s] := by
  rw [rustSplitDash, splitOnDashChars_no_dash h]
  rfl

theorem restore_found {g : Game} {target second : String} {dir : List String}
    (h1 : target ∈ dir) (h2 : (rustSplitDash target)[1]? = some second) :
    restore g target dir =
      (.restored (backupFileName g.name
          (some ("replaced-with-" ++ trimEndNonDigits second)) dir.length),
        dir ++ [backupFileName g.name
          (some ("replaced-with-" ++ trimEndNonDigits second)) dir.length]) := by
  simp only [restore, h2]
  rw [if_pos (List.mem_append_left _ h1)]

theorem restore_panic_of_split_none {g : Game} {target : String} {dir : List String}
    (h : (rustSplitDash target)[1]? = none) :
    restore g target dir = (.panicMissingIdx, dir) := by
  simp only [restore, h]

/-! ### Claims -/

/-- Claim C1 (counterexample): a pushed record that collides with a stored
    record on `root` under the OR-identity `PartialEq` but has a different name
    is inserted as a second entry, not merged: `push` matches via
    `binary_search`, which uses `Ord` (name only), never `PartialEq`. -/
theorem push_or_identity_collision_inserts :
    Game.rustEq ⟨"A", "R", "S1", none, none⟩ ⟨"B", "R", "S2", none, none⟩ = true ∧
      Games.push [⟨"A", "R", "S1", none, none⟩] ⟨"B", "R", "S2", none, none⟩ =
        [⟨"A", "R", "S1", none, none⟩, ⟨"B", "R", "S2", none, none⟩] :=
  ⟨rfl, rfl⟩

/-- Claim C1 (amended): on a sorted registry, `push` merges (keeps the length)
    exactly when some stored record has the pushed record's name; root or
    save_location collisions alone insert a new entry. -/
theorem push_merges_iff_name_present {l : List Game} {g : Game} (hs : sortedByName l) :
    (Games.push l g).length = l.length ↔ g.name ∈ l.map Game.name :=
  push_length_iff hs

/-- Claim C1 (amended) witness at a concrete registry. -/
theorem push_merges_iff_name_present_witness :
    (Games.push [⟨"A", "R1", "S1", none, none⟩] ⟨"A", "R2", "S2", none, none⟩).length = 1 :=
  (push_merges_iff_name_present (by decide)).mpr (by decide)

/-- Claim C2: starting from any registry sorted by name with pairwise-distinct
    names, any sequence of `push` operations keeps the registry strictly
    sorted by name, with each name occurring at most once. -/
theorem push_foldl_sorted_unique (l0 gs : List Game) (hs : sortedByName l0) :
    sortedByName (gs.foldl Games.push l0) ∧
      ((gs.foldl Games.push l0).map Game.name).Nodup :=
  ⟨push_sorted_foldl gs hs, sorted_names_nodup (push_sorted_foldl gs hs)⟩

/-- Claim C2 witness: three pushes (one a name collision) from the empty
    registry. -/
theorem push_foldl_sorted_unique_witness :
    sortedByName ([⟨"B", "R2", "S2", none, none⟩, ⟨"A", "R1", "S1", none, none⟩,
        ⟨"B", "R3", "S3", none, none⟩].foldl Games.push []) ∧
      (([⟨"B", "R2", "S2", none, none⟩, ⟨"A", "R1", "S1", none, none⟩,
        ⟨"B", "R3", "S3", none, none⟩].foldl Games.push []).map Game.name).Nodup :=
  push_foldl_sorted_unique []
    [⟨"B", "R2", "S2", none, none⟩, ⟨"A", "R1", "S1", none, none⟩,
      ⟨"B", "R3", "S3", none, none⟩] (by decide)

/-- Claim C3: pushing a record whose name matches the record stored at index
    `i` overwrites root and save_location, replaces executable/run_commands
    only when the pushed record sets them, and keeps the rest. -/
theorem push_same_name_merge_fields (l : List Game) (g : Game) (i : Nat)
    (hs : sortedByName l) (hi : i < l.length) (hn : nameAt l i = g.name) :
    Games.push l g = l.set i
      { name := (l.getD i default).name
        root := g.root
        save_location := g.save_location
        executable := g.executable.or ((l.getD i default).executable)
        run_commands := g.run_commands.or ((l.getD i default).run_commands) } := by
  rw [push_found_merges hs hi hn, merge_fields]

/-- Claim C3 witness: the spec example — pushing name A with a new root onto a
    stored record keeps the previously-set executable. -/
theorem push_same_name_merge_fields_witness :
    Games.push [⟨"A", "R1", "S", some "E", none⟩] ⟨"A", "R2", "S2", none, none⟩ =
      [⟨"A", "R2", "S2", some "E", none⟩] :=
  (push_same_name_merge_fields [⟨"A", "R1", "S", some "E", none⟩]
    ⟨"A", "R2", "S2", none, none⟩ 0 (by decide) (by decide) rfl).trans rfl

/-- Claim C4 (code behaviour at the failing input): restoring a non-existent
    backup does NOT stop with a NotFound error — the `try_exists` boolean is
    discarded — so the safety snapshot is still created, and the operation
    only fails afterwards, when opening the target archive. -/
theorem restore_missing_target_snapshots_then_fails :
    restore ⟨"Foo", "R", "S", none, none⟩ "Foo-005.tar.zst" [] =
      (.openFailed "Foo-000-replaced-with-005.tar.zst",
        ["Foo-000-replaced-with-005.tar.zst"]) :=
  rfl

/-- Claim C5: restoring an existing backup whose name has a second
    dash-component creates exactly one additional archive before extraction,
    described as `replaced-with-I` with `I` the second dash-component of the
    target name stripped of trailing non-digits. -/
theorem restore_creates_one_safety_snapshot (g : Game) (target second : String)
    (dir : List String) (h1 : target ∈ dir)
    (h2 : (rustSplitDash target)[1]? = some second) :
    restore g target dir =
      (.restored (backupFileName g.name
          (some ("replaced-with-" ++ trimEndNonDigits second)) dir.length),
        dir ++ [backupFileName g.name
          (some ("replaced-with-" ++ trimEndNonDigits second)) dir.length]) :=
  restore_found h1 h2

/-- Claim C5 witness: restoring `Foo-000.tar.zst` from a directory holding
    exactly that backup snapshots the current state first. -/
theorem restore_creates_one_safety_snapshot_witness :
    restore ⟨"Foo", "R", "S", none, none⟩ "Foo-000.tar.zst" ["Foo-000.tar.zst"] =
      (.restored "Foo-001-replaced-with-000.tar.zst",
        ["Foo-000.tar.zst", "Foo-001-replaced-with-000.tar.zst"]) :=
  (restore_creates_one_safety_snapshot ⟨"Foo", "R", "S", none, none⟩
    "Foo-000.tar.zst" "000.tar.zst" ["Foo-000.tar.zst"] (by decide) rfl).trans rfl

/-- Claim C6 (counterexample): for a game name containing a dot the archive is
    NOT `N-<NNN>.tar.zst`: `with_extension` replaces everything after the last
    dot, so game `Foo.bar` with zero existing backups yields `Foo.tar.zst`. -/
theorem backupFileName_dotted_name_counterexample :
    backupFileName "Foo.bar" none 0 = "Foo.tar.zst" ∧
      backupFileName "Foo.bar" none 0 ≠ "Foo.bar-000.tar.zst" :=
  ⟨rfl, by decide⟩

/-- Claim C6 (amended): when neither the game name nor the description
    contains a dot, the archive name is `N-<NNN>[-D].tar.zst` with `NNN` the
    zero-padded (width 3) count of entries in the backup directory. -/
theorem backupFileName_dotless_spec (n : String) (desc : Option String) (count : Nat)
    (hn : '.' ∉ n.toList) (hd : ∀ d, desc = some d → '.' ∉ d.toList) :
    backupFileName n desc count =
      n ++ "-" ++ pad3 count ++ descSuffix desc ++ ".tar.zst" :=
  backupFileName_no_dot count hn hd

/-- Claim C6 (amended) witness: the two concrete names from the spec. -/
theorem backupFileName_dotless_spec_witness :
    backupFileName "Foo" none 0 = "Foo-000.tar.zst" ∧
      backupFileName "Foo" (some "pre-patch") 1 = "Foo-001-pre-patch.tar.zst" :=
  ⟨(backupFileName_dotless_spec "Foo" none 0 (by decide)
      (fun d h => nomatch h)).trans rfl,
    (backupFileName_dotless_spec "Foo" (some "pre-patch") 1 (by decide)
      (fun d h => by cases h; decide)).trans rfl⟩

/-- Claim C7 (counterexample): `push` itself never checks `root ≠
    save_location`; pushing a record with equal root and save_location into
    the empty registry stores it unchanged. Only `add` performs the check. -/
theorem push_accepts_root_eq_save :
    Games.push [] ⟨"A", "P", "P", none, none⟩ = [⟨"A", "P", "P", none, none⟩] ∧
      (⟨"A", "P", "P", none, none⟩ : Game).root =
        (⟨"A", "P", "P", none, none⟩ : Game).save_location :=
  ⟨rfl, rfl⟩

/-- Claim C7 (amended): `push` preserves the `root ≠ save_location` invariant
    whenever the pushed record itself satisfies it, `delete` always preserves
    it, and `add`'s guard accepts exactly the records satisfying it; `push`
    performs no check of its own. -/
theorem registry_root_ne_save_preservation :
    (∀ (l : List Game) (g0 : Game), (∀ a ∈ l, a.root ≠ a.save_location) →
        g0.root ≠ g0.save_location → ∀ a ∈ Games.push l g0, a.root ≠ a.save_location) ∧
      (∀ (l : List Game) (n : String), (∀ a ∈ l, a.root ≠ a.save_location) →
        ∀ a ∈ (Games.delete l n).2, a.root ≠ a.save_location) ∧
      (∀ r s : String, addRootSaveCheck r s = .ok () ↔ r ≠ s) :=
  ⟨fun _ _ hl hg => push_preserves_root_ne_save hl hg,
    fun _ _ hl => delete_preserves_root_ne_save hl,
    fun r s => by
      rw [addRootSaveCheck]
      split_ifs with h <;> simp [h]⟩

/-- Claim C7 (amended) witness at a concrete record. -/
theorem registry_root_ne_save_preservation_witness :
    (⟨"A", "P", "Q", none, none⟩ : Game).root ≠
      (⟨"A", "P", "Q", none, none⟩ : Game).save_location :=
  registry_root_ne_save_preservation.1 [] ⟨"A", "P", "Q", none, none⟩
    (fun a ha => absurd ha (List.not_mem_nil a)) (by decide)
    ⟨"A", "P", "Q", none, none⟩ (by decide)

/-- Claim C8: on a sorted registry, `delete name` followed by
    `get_by_name name` yields the does-not-exist error, whether or not the
    delete found a record. -/
theorem delete_then_get_by_name_not_found {l : List Game} {n : String}
    (hs : sortedByName l) :
    Games.get_by_name (Games.delete l n).2 n = .error (notFoundMsg n) :=
  get_by_name_error_of_no_name (delete_removes_name hs)

/-- Claim C8 witness at a concrete registry. -/
theorem delete_then_get_by_name_not_found_witness :
    Games.get_by_name (Games.delete [⟨"A", "R", "S", none, none⟩] "A").2 "A" =
      .error (notFoundMsg "A") :=
  delete_then_get_by_name_not_found (by decide)

/-- Claim C9: `Game::merge` never touches the stored record's name, so the
    incoming record's name is discarded whenever it differs. -/
theorem merge_keeps_name (a b : Game) : (a.merge b).name = a.name :=
  rfl

/-- Claim C10: a target backup name without any dash has no second
    split-component, and `restore` hits the `unwrap` panic instead of
    returning an error (no snapshot is created, the directory is unchanged). -/
theorem restore_dashless_target_panics {g : Game} {target : String}
    {dir : List String} (h : '-' ∉ target.toList) :
    (rustSplitDash target)[1]? = none ∧
      restore g target dir = (.panicMissingIdx, dir) := by
  have hnone : (rustSplitDash target)[1]? = none := by
    rw [rustSplitDash_no_dash h]
    rfl
  exact ⟨hnone, restore_panic_of_split_none hnone⟩

/-- Claim C10 witness at a concrete dash-less target name. -/
theorem restore_dashless_target_panics_witness :
    (rustSplitDash "backup")[1]? = none ∧
      restore ⟨"Foo", "R", "S", none, none⟩ "backup" [] = (.panicMissingIdx, []) :=
  restore_dashless_target_panics (by decide)
